import Mathlib

/- Verification of the tincture color library (src/hue.rs, src/xyz.rs, src/lib.rs).

Float values are modelled as exact rationals.  Where IEEE-754 binary32 rounding
matters (the arithmetic inside Hue), each floating-point operation result is
passed through `roundF32`: round-to-nearest, ties-to-even, 24 significand bits,
unbounded exponent (no value arising in the ranges used here overflows, and
underflow cannot change any statement proved below).  NaN inputs are modelled
by the `F32` type; in IEEE-754 every comparison involving a NaN is false, which
is how `Hue.from_degrees` treats the `F32.nan` case. -/

/-- Round a rational to the nearest integer, ties going to the even integer. -/
def roundHalfEven (m : ℚ) : ℤ :=
  if m - ⌊m⌋ < 1/2 then ⌊m⌋
  else if 1/2 < m - ⌊m⌋ then ⌊m⌋ + 1
  else if ⌊m⌋ % 2 = 0 then ⌊m⌋ else ⌊m⌋ + 1

/-- Binary exponent of the least significant significand bit of the binary32 value nearest `q`. -/
def f32exp (q : ℚ) : ℤ := Int.log 2 |q| - 23

/-- Round a rational to the nearest IEEE-754 binary32 value (ties to even), with unbounded
exponent range. -/
def roundF32 (q : ℚ) : ℚ :=
  if q = 0 then 0
  else (if q < 0 then -1 else 1) * roundHalfEven (|q| / 2 ^ f32exp q) * 2 ^ f32exp q

/-- A rational is (the value of) an f32 when rounding fixes it. -/
def isF32 (q : ℚ) : Prop := roundF32 q = q

/-- An f32 argument: either NaN or a finite numeric value. -/
inductive F32 where
  | nan : F32
  | val : ℚ → F32
  deriving DecidableEq

/-- Exact value of the f32 constant `consts::PI / 180.0` used by `f32::to_radians`
(the f32 division of the binary32 pi by 180, as Rust computes it). -/
def RADS_PER_DEG : ℚ := 9370165 / 536870912

/-- Exact value of the f32 constant `57.2957795130823208767981548141051703_f32`
used by `f32::to_degrees`. -/
def PIS_IN_180 : ℚ := 15019745 / 262144

/-- Model of `f32::to_radians`: multiply by `RADS_PER_DEG`, rounding the product. -/
def f32ToRadians (x : ℚ) : ℚ := roundF32 (x * RADS_PER_DEG)

/-- Model of `f32::to_degrees`: multiply by `PIS_IN_180`, rounding the product. -/
def f32ToDegrees (x : ℚ) : ℚ := roundF32 (x * PIS_IN_180)

/-- The hue of a color (src/hue.rs, lines 2-5). -/
structure Hue where
  unnormalized_radians : ℚ
  deriving DecidableEq

/-- Model of `Hue::from_degrees` (src/hue.rs, lines 11-25).  The guard is
`!(0.0..=360.0).contains(&degrees)`; a NaN fails both comparisons of `contains`,
so a NaN input takes the early return. -/
def Hue.from_degrees : F32 → Option Hue
  | F32.nan => none
  | F32.val degrees =>
    if ¬(0 ≤ degrees ∧ degrees ≤ 360) then none
    else
      let unnormalized_degrees := if 180 < degrees then roundF32 (degrees - 360) else degrees
      some ⟨f32ToRadians unnormalized_degrees⟩

/-- Model of `Hue::to_degrees` (src/hue.rs, lines 28-36). -/
def Hue.to_degrees (h : Hue) : ℚ :=
  let unnormalized_degrees := f32ToDegrees h.unnormalized_radians
  if unnormalized_degrees < 0 then roundF32 (unnormalized_degrees + 360)
  else unnormalized_degrees

/-- A color from the CIE 1931 XYZ color space (src/xyz.rs, lines 4-15). -/
structure Xyz where
  x : ℚ
  y : ℚ
  z : ℚ
  deriving DecidableEq

/-- Model of `approx_in_range` (src/lib.rs, lines 126-129): the half-open nominal range is
widened by 0.005 at both ends; `Range::contains` is `start <= n && n < end`. -/
def approx_in_range (n : ℚ) (start stop : ℚ) : Bool :=
  decide (start - 0.005 ≤ n) && decide (n < stop + 0.005)

/-- The constant `Xyz::BLACK` (src/xyz.rs, lines 18-22). -/
def Xyz.BLACK : Xyz := { x := 0.0, y := 0.0, z := 0.0 }

/-- The constant `Xyz::WHITE` with the component values exactly as written in
src/xyz.rs, lines 24-28 (note the z component). -/
def Xyz.WHITE : Xyz := { x := 0.95047003, y := 1.0, z := 0.108883 }

/-- Model of `Xyz::in_bounds` (src/xyz.rs, lines 30-34). -/
def Xyz.in_bounds (c : Xyz) : Bool :=
  approx_in_range c.x 0.0 0.95047003 && approx_in_range c.y 0.0 1.0 &&
    approx_in_range c.z 0.0 1.08883

/-- The trait `CoreColorSpace` (src/lib.rs, lines 100-106), as the record of its two methods. -/
structure CoreColorSpace (α : Type) where
  from_xyz : Xyz → α
  to_xyz : α → Xyz

/-- The implementation `impl CoreColorSpace for Xyz` (src/xyz.rs, lines 37-45):
identity in both directions. -/
def Xyz.coreColorSpace : CoreColorSpace Xyz where
  from_xyz := fun xyz => xyz
  to_xyz := fun c => c

/-- Model of `convert` (src/lib.rs, lines 121-124). -/
def convert {In Out : Type} (inSpace : CoreColorSpace In) (outSpace : CoreColorSpace Out)
    (color : In) : Out :=
  let xyz := inSpace.to_xyz color
  outSpace.from_xyz xyz

theorem rhe_ge_floor (m : ℚ) : ⌊m⌋ ≤ roundHalfEven m := by
  unfold roundHalfEven
  split_ifs <;> omega

theorem rhe_le_floor_add_one (m : ℚ) : roundHalfEven m ≤ ⌊m⌋ + 1 := by
  unfold roundHalfEven
  split_ifs <;> omega

theorem rhe_le (m : ℚ) : (roundHalfEven m : ℚ) ≤ m + 1/2 := by
  have hfl : (⌊m⌋ : ℚ) ≤ m := Int.floor_le m
  unfold roundHalfEven
  split_ifs with h1 h2 h3 <;> push_cast <;> linarith

theorem rhe_ge (m : ℚ) : m - 1/2 ≤ (roundHalfEven m : ℚ) := by
  have hfl : m < ⌊m⌋ + 1 := Int.lt_floor_add_one m
  unfold roundHalfEven
  split_ifs with h1 h2 h3 <;> push_cast <;> linarith

theorem rhe_mono {m n : ℚ} (h : m ≤ n) : roundHalfEven m ≤ roundHalfEven n := by
  have hf : ⌊m⌋ ≤ ⌊n⌋ := Int.floor_mono h
  rcases lt_or_eq_of_le hf with hlt | heq
  · calc roundHalfEven m ≤ ⌊m⌋ + 1 := rhe_le_floor_add_one m
      _ ≤ ⌊n⌋ := by omega
      _ ≤ roundHalfEven n := rhe_ge_floor n
  · have hmn : m - ⌊m⌋ ≤ n - ⌊n⌋ := by
      rw [← heq]; linarith
    unfold roundHalfEven
    rw [← heq]
    split_ifs <;> first | omega | linarith

theorem rhe_intCast (k : ℤ) : roundHalfEven (k : ℚ) = k := by
  unfold roundHalfEven
  rw [Int.floor_intCast]
  norm_num

theorem rhe_eq_of_lt_half {m : ℚ} (fl : ℤ) (h1 : (fl : ℚ) ≤ m) (h2 : m - fl < 1/2) :
    roundHalfEven m = fl := by
  have hfl : ⌊m⌋ = fl := Int.floor_eq_iff.mpr ⟨h1, by linarith⟩
  unfold roundHalfEven
  rw [hfl, if_pos (by linarith)]

theorem rhe_eq_of_gt_half {m : ℚ} (fl : ℤ) (h1 : (fl : ℚ) ≤ m) (h2 : 1/2 < m - fl)
    (h3 : m - fl < 1) : roundHalfEven m = fl + 1 := by
  have hfl : ⌊m⌋ = fl := Int.floor_eq_iff.mpr ⟨h1, by linarith⟩
  unfold roundHalfEven
  rw [hfl, if_neg (by linarith), if_pos (by linarith)]

theorem roundF32_zero : roundF32 0 = 0 := by simp [roundF32]

theorem roundF32_pos_eq {q : ℚ} (hq : 0 < q) :
    roundF32 q = roundHalfEven (q / 2 ^ f32exp q) * 2 ^ f32exp q := by
  rw [roundF32, if_neg hq.ne', if_neg (not_lt.mpr hq.le), one_mul, abs_of_pos hq]

theorem f32exp_le {q : ℚ} (hq : 0 < q) : (2 : ℚ) ^ (f32exp q + 23) ≤ q := by
  have h := Int.zpow_log_le_self (b := 2) (R := ℚ) (by norm_num) (abs_pos.mpr hq.ne')
  rw [abs_of_pos hq] at h
  have he : f32exp q + 23 = Int.log 2 q := by
    rw [f32exp, abs_of_pos hq]; ring
  rw [he]
  exact h

theorem f32exp_gt {q : ℚ} (hq : 0 < q) : q < (2 : ℚ) ^ (f32exp q + 24) := by
  have h := Int.lt_zpow_succ_log_self (b := 2) (R := ℚ) (by norm_num) q
  have he : f32exp q + 24 = Int.log 2 q + 1 := by
    rw [f32exp, abs_of_pos hq]; ring
  rw [he]
  exact h

theorem mantissa_lb {q : ℚ} (hq : 0 < q) : (2 : ℚ) ^ (23 : ℕ) ≤ q / 2 ^ f32exp q := by
  have hpow : (0 : ℚ) < 2 ^ f32exp q := zpow_pos (by norm_num) _
  rw [le_div_iff₀ hpow]
  calc (2 : ℚ) ^ (23 : ℕ) * 2 ^ f32exp q = 2 ^ (f32exp q + 23) := by
        rw [zpow_add₀ (by norm_num : (2:ℚ) ≠ 0)]
        norm_num [mul_comm]
    _ ≤ q := f32exp_le hq

theorem mantissa_ub {q : ℚ} (hq : 0 < q) : q / 2 ^ f32exp q < (2 : ℚ) ^ (24 : ℕ) := by
  have hpow : (0 : ℚ) < 2 ^ f32exp q := zpow_pos (by norm_num) _
  rw [div_lt_iff₀ hpow]
  calc q < 2 ^ (f32exp q + 24) := f32exp_gt hq
    _ = 2 ^ (24 : ℕ) * 2 ^ f32exp q := by
        rw [zpow_add₀ (by norm_num : (2:ℚ) ≠ 0)]
        norm_num [mul_comm]

theorem roundF32_pos {q : ℚ} (hq : 0 < q) : 0 < roundF32 q := by
  have hpow : (0 : ℚ) < 2 ^ f32exp q := zpow_pos (by norm_num) _
  rw [roundF32_pos_eq hq]
  have h1 : (2 : ℚ) ^ (23:ℕ) ≤ q / 2 ^ f32exp q := mantissa_lb hq
  have h2 : (q / 2 ^ f32exp q) - 1/2 ≤ roundHalfEven (q / 2 ^ f32exp q) := rhe_ge _
  have h3 : ((2:ℚ) ^ (23:ℕ)) = 8388608 := by norm_num
  have hrhe : (0:ℚ) < (roundHalfEven (q / 2 ^ f32exp q) : ℚ) := by
    rw [h3] at h1
    linarith
  exact mul_pos hrhe hpow

theorem pow_div_le_div {q : ℚ} (hq : 0 < q) : (2:ℚ) ^ f32exp q / 2 ≤ q / 16777216 := by
  have h1 : (2:ℚ) ^ (f32exp q + 23) ≤ q := f32exp_le hq
  have h2 : (2:ℚ) ^ (f32exp q + 23) = 2 ^ f32exp q * 2 ^ (23:ℤ) :=
    zpow_add₀ (by norm_num) _ _
  have h3 : (2:ℚ) ^ (23:ℤ) = 8388608 := by norm_num
  rw [h2, h3] at h1
  rw [div_le_div_iff₀ (by norm_num) (by norm_num)]
  linarith

theorem roundF32_le {q : ℚ} (hq : 0 ≤ q) : roundF32 q ≤ q + q / 16777216 := by
  rcases eq_or_lt_of_le hq with h | h
  · rw [← h, roundF32_zero]; norm_num
  · have hpow : (0 : ℚ) < 2 ^ f32exp q := zpow_pos (by norm_num) _
    rw [roundF32_pos_eq h]
    have h1 : (roundHalfEven (q / 2 ^ f32exp q) : ℚ) ≤ q / 2 ^ f32exp q + 1/2 := rhe_le _
    have h2 : (roundHalfEven (q / 2 ^ f32exp q) : ℚ) * 2 ^ f32exp q ≤
        (q / 2 ^ f32exp q + 1/2) * 2 ^ f32exp q :=
      mul_le_mul_of_nonneg_right h1 hpow.le
    have h3 : (q / 2 ^ f32exp q + 1/2) * 2 ^ f32exp q = q + 2 ^ f32exp q / 2 := by
      field_simp
      ring
    have h4 := pow_div_le_div h
    linarith

theorem roundF32_ge {q : ℚ} (hq : 0 ≤ q) : q - q / 16777216 ≤ roundF32 q := by
  rcases eq_or_lt_of_le hq with h | h
  · rw [← h, roundF32_zero]; norm_num
  · have hpow : (0 : ℚ) < 2 ^ f32exp q := zpow_pos (by norm_num) _
    rw [roundF32_pos_eq h]
    have h1 : q / 2 ^ f32exp q - 1/2 ≤ (roundHalfEven (q / 2 ^ f32exp q) : ℚ) := rhe_ge _
    have h2 : (q / 2 ^ f32exp q - 1/2) * 2 ^ f32exp q ≤
        (roundHalfEven (q / 2 ^ f32exp q) : ℚ) * 2 ^ f32exp q :=
      mul_le_mul_of_nonneg_right h1 hpow.le
    have h3 : (q / 2 ^ f32exp q - 1/2) * 2 ^ f32exp q = q - 2 ^ f32exp q / 2 := by
      field_simp
      ring
    have h4 := pow_div_le_div h
    linarith

theorem roundF32_neg (q : ℚ) : roundF32 (-q) = -roundF32 q := by
  have hexp : f32exp (-q) = f32exp q := by rw [f32exp, f32exp, abs_neg]
  rcases lt_trichotomy q 0 with h | h | h
  · have hq' : (0:ℚ) < -q := by linarith
    rw [roundF32_pos_eq hq', hexp, roundF32, if_neg h.ne, if_pos h, abs_of_neg h]
    ring
  · rw [h, neg_zero, roundF32_zero, neg_zero]
  · have hq' : -q < 0 := by linarith
    rw [roundF32, if_neg hq'.ne, if_pos hq', abs_neg, abs_of_pos h, hexp,
      roundF32_pos_eq h]
    ring

theorem roundF32_nonneg {q : ℚ} (hq : 0 ≤ q) : 0 ≤ roundF32 q := by
  rcases eq_or_lt_of_le hq with h | h
  · rw [← h, roundF32_zero]
  · exact (roundF32_pos h).le

theorem roundF32_neg_of_neg {q : ℚ} (hq : q < 0) : roundF32 q < 0 := by
  have h1 : roundF32 (-(-q)) = -roundF32 (-q) := roundF32_neg (-q)
  rw [neg_neg] at h1
  rw [h1]
  have h2 : 0 < roundF32 (-q) := roundF32_pos (by linarith)
  linarith

theorem roundF32_mono_pos {a b : ℚ} (ha : 0 < a) (hab : a ≤ b) : roundF32 a ≤ roundF32 b := by
  have hb : 0 < b := lt_of_lt_of_le ha hab
  have hloga : f32exp a ≤ f32exp b := by
    rw [f32exp, f32exp, abs_of_pos ha, abs_of_pos hb]
    have := Int.log_mono_right (b := 2) ha hab
    omega
  have hpa : (0 : ℚ) < 2 ^ f32exp a := zpow_pos (by norm_num) _
  have hpb : (0 : ℚ) < 2 ^ f32exp b := zpow_pos (by norm_num) _
  rcases eq_or_lt_of_le hloga with heq | hlt
  · rw [roundF32_pos_eq ha, roundF32_pos_eq hb, ← heq]
    have hm : a / 2 ^ f32exp a ≤ b / 2 ^ f32exp a := by
      rw [div_eq_mul_inv, div_eq_mul_inv]
      exact mul_le_mul_of_nonneg_right hab (inv_nonneg.mpr hpa.le)
    have hr : roundHalfEven (a / 2 ^ f32exp a) ≤ roundHalfEven (b / 2 ^ f32exp a) := rhe_mono hm
    exact mul_le_mul_of_nonneg_right (by exact_mod_cast hr) hpa.le
  · have bound1 : roundF32 a ≤ 16777216 * 2 ^ f32exp a := by
      rw [roundF32_pos_eq ha]
      have hub : a / 2 ^ f32exp a < (2:ℚ) ^ (24:ℕ) := mantissa_ub ha
      have hfl : ⌊a / 2 ^ f32exp a⌋ < (16777216 : ℤ) := by
        have h1 : (⌊a / 2 ^ f32exp a⌋ : ℚ) ≤ a / 2 ^ f32exp a := Int.floor_le _
        have h2 : ((2:ℚ) ^ (24:ℕ)) = ((16777216 : ℤ) : ℚ) := by norm_num
        rw [h2] at hub
        exact_mod_cast lt_of_le_of_lt h1 hub
      have hrhe : roundHalfEven (a / 2 ^ f32exp a) ≤ 16777216 := by
        have := rhe_le_floor_add_one (a / 2 ^ f32exp a)
        omega
      exact mul_le_mul_of_nonneg_right (by exact_mod_cast hrhe) hpa.le
    have bound2 : 8388608 * 2 ^ f32exp b ≤ roundF32 b := by
      rw [roundF32_pos_eq hb]
      have hlb : (2:ℚ) ^ (23:ℕ) ≤ b / 2 ^ f32exp b := mantissa_lb hb
      have hfl : (8388608 : ℤ) ≤ ⌊b / 2 ^ f32exp b⌋ := by
        rw [Int.le_floor]
        have h2 : (((8388608 : ℤ)) : ℚ) = ((2:ℚ) ^ (23:ℕ)) := by norm_num
        rw [h2]
        exact hlb
      have hrhe : (8388608 : ℤ) ≤ roundHalfEven (b / 2 ^ f32exp b) := by
        have := rhe_ge_floor (b / 2 ^ f32exp b)
        omega
      exact mul_le_mul_of_nonneg_right (by exact_mod_cast hrhe) hpb.le
    have link : (16777216 : ℚ) * 2 ^ f32exp a ≤ 8388608 * 2 ^ f32exp b := by
      have h1 : (2:ℚ) ^ (f32exp a + 1) ≤ 2 ^ f32exp b :=
        zpow_le_zpow_right₀ (by norm_num) (by omega)
      have h2 : (2:ℚ) ^ (f32exp a + 1) = 2 ^ f32exp a * 2 := zpow_add_one₀ (by norm_num) _
      nlinarith
    linarith

theorem roundF32_mono {a b : ℚ} (hab : a ≤ b) : roundF32 a ≤ roundF32 b := by
  rcases lt_trichotomy a 0 with ha | ha | ha
  · rcases lt_trichotomy b 0 with hb | hb | hb
    · have h1 : roundF32 (-b) ≤ roundF32 (-a) := roundF32_mono_pos (by linarith) (by linarith)
      rw [roundF32_neg, roundF32_neg] at h1
      linarith
    · rw [hb, roundF32_zero]
      exact (roundF32_neg_of_neg ha).le
    · exact le_trans (roundF32_neg_of_neg ha).le (roundF32_nonneg hb.le)
  · rw [ha, roundF32_zero]
    exact roundF32_nonneg (by linarith)
  · exact roundF32_mono_pos ha hab

theorem roundF32_eval {q : ℚ} (e n : ℤ) (h0 : 0 < q) (h1 : (2:ℚ) ^ (e + 23) ≤ q)
    (h2 : q < (2:ℚ) ^ (e + 24)) (h3 : roundHalfEven (q / 2 ^ e) = n) :
    roundF32 q = (n : ℚ) * 2 ^ e := by
  have hexp : f32exp q = e := by
    have ha : e + 23 ≤ Int.log 2 q := (Int.zpow_le_iff_le_log (by norm_num) h0).mp h1
    have hb : Int.log 2 q < e + 24 := (Int.lt_zpow_iff_log_lt (by norm_num) h0).mp h2
    rw [f32exp, abs_of_pos h0]
    omega
  rw [roundF32_pos_eq h0, hexp, h3]

theorem roundF32_180mul : roundF32 (180 * RADS_PER_DEG) = 13176795 / 4194304 := by
  have h3 : roundHalfEven (180 * RADS_PER_DEG / 2 ^ (-22 : ℤ)) = 13176795 := by
    have := rhe_eq_of_gt_half (m := 180 * RADS_PER_DEG / 2 ^ (-22 : ℤ)) 13176794
      (by norm_num [RADS_PER_DEG]) (by norm_num [RADS_PER_DEG]) (by norm_num [RADS_PER_DEG])
    omega
  have h := roundF32_eval (q := 180 * RADS_PER_DEG) (-22) 13176795
    (by norm_num [RADS_PER_DEG]) (by norm_num [RADS_PER_DEG]) (by norm_num [RADS_PER_DEG]) h3
  rw [h]
  norm_num

theorem roundF32_180 : roundF32 ((180 : ℚ)) = 180 := by
  have h3 : roundHalfEven ((180 : ℚ) / 2 ^ (-16 : ℤ)) = 11796480 := by
    have := rhe_eq_of_lt_half (m := (180 : ℚ) / 2 ^ (-16 : ℤ)) 11796480
      (by norm_num) (by norm_num)
    omega
  have h := roundF32_eval (q := (180 : ℚ)) (-16) 11796480
    (by norm_num) (by norm_num) (by norm_num) h3
  rw [h]
  norm_num

theorem roundF32_sub16 : roundF32 ((11796479/65536 : ℚ)) = 11796479/65536 := by
  have h3 : roundHalfEven ((11796479/65536 : ℚ) / 2 ^ (-16 : ℤ)) = 11796479 := by
    have := rhe_eq_of_lt_half (m := (11796479/65536 : ℚ) / 2 ^ (-16 : ℤ)) 11796479
      (by norm_num) (by norm_num)
    omega
  have h := roundF32_eval (q := (11796479/65536 : ℚ)) (-16) 11796479
    (by norm_num) (by norm_num) (by norm_num) h3
  rw [h]
  norm_num

theorem roundF32_sub16mul : roundF32 (11796479/65536 * RADS_PER_DEG) = 13176793/4194304 := by
  have h3 : roundHalfEven (11796479/65536 * RADS_PER_DEG / 2 ^ (-22 : ℤ)) = 13176793 := by
    have := rhe_eq_of_lt_half (m := 11796479/65536 * RADS_PER_DEG / 2 ^ (-22 : ℤ)) 13176793
      (by norm_num [RADS_PER_DEG]) (by norm_num [RADS_PER_DEG])
    omega
  have h := roundF32_eval (q := 11796479/65536 * RADS_PER_DEG) (-22) 13176793
    (by norm_num [RADS_PER_DEG]) (by norm_num [RADS_PER_DEG]) (by norm_num [RADS_PER_DEG]) h3
  rw [h]
  norm_num

theorem roundF32_eps15 : roundF32 ((1/32768 : ℚ)) = 1/32768 := by
  have h3 : roundHalfEven ((1/32768 : ℚ) / 2 ^ (-38 : ℤ)) = 8388608 := by
    have := rhe_eq_of_lt_half (m := (1/32768 : ℚ) / 2 ^ (-38 : ℤ)) 8388608
      (by norm_num) (by norm_num)
    omega
  have h := roundF32_eval (q := (1/32768 : ℚ)) (-38) 8388608
    (by norm_num) (by norm_num) (by norm_num) h3
  rw [h]
  norm_num

theorem roundF32_eps15mul : roundF32 (1/32768 * RADS_PER_DEG) = 9370165/17592186044416 := by
  have h3 : roundHalfEven (1/32768 * RADS_PER_DEG / 2 ^ (-44 : ℤ)) = 9370165 := by
    have := rhe_eq_of_lt_half (m := 1/32768 * RADS_PER_DEG / 2 ^ (-44 : ℤ)) 9370165
      (by norm_num [RADS_PER_DEG]) (by norm_num [RADS_PER_DEG])
    omega
  have h := roundF32_eval (q := 1/32768 * RADS_PER_DEG) (-44) 9370165
    (by norm_num [RADS_PER_DEG]) (by norm_num [RADS_PER_DEG]) (by norm_num [RADS_PER_DEG]) h3
  rw [h]
  norm_num

theorem roundF32_eps15mulmul : roundF32 (9370165/17592186044416 * PIS_IN_180) = 1/32768 := by
  have h3 : roundHalfEven (9370165/17592186044416 * PIS_IN_180 / 2 ^ (-38 : ℤ)) = 8388608 := by
    have := rhe_eq_of_lt_half (m := 9370165/17592186044416 * PIS_IN_180 / 2 ^ (-38 : ℤ)) 8388608
      (by norm_num [PIS_IN_180]) (by norm_num [PIS_IN_180])
    omega
  have h := roundF32_eval (q := 9370165/17592186044416 * PIS_IN_180) (-38) 8388608
    (by norm_num [PIS_IN_180]) (by norm_num [PIS_IN_180]) (by norm_num [PIS_IN_180]) h3
  rw [h]
  norm_num

theorem roundF32_360sub : roundF32 ((360 - 1/32768 : ℚ)) = 360 - 1/32768 := by
  have h3 : roundHalfEven ((360 - 1/32768 : ℚ) / 2 ^ (-15 : ℤ)) = 11796479 := by
    have := rhe_eq_of_lt_half (m := (360 - 1/32768 : ℚ) / 2 ^ (-15 : ℤ)) 11796479
      (by norm_num) (by norm_num)
    omega
  have h := roundF32_eval (q := (360 - 1/32768 : ℚ)) (-15) 11796479
    (by norm_num) (by norm_num) (by norm_num) h3
  rw [h]
  norm_num

theorem roundF32_pi32mul : roundF32 (13176795/4194304 * PIS_IN_180) = 180 := by
  have h3 : roundHalfEven (13176795/4194304 * PIS_IN_180 / 2 ^ (-16 : ℤ)) = 11796480 := by
    have := rhe_eq_of_lt_half (m := 13176795/4194304 * PIS_IN_180 / 2 ^ (-16 : ℤ)) 11796480
      (by norm_num [PIS_IN_180]) (by norm_num [PIS_IN_180])
    omega
  have h := roundF32_eval (q := 13176795/4194304 * PIS_IN_180) (-16) 11796480
    (by norm_num [PIS_IN_180]) (by norm_num [PIS_IN_180]) (by norm_num [PIS_IN_180]) h3
  rw [h]
  norm_num

theorem from_degrees_eq_some {d : ℚ} (h0 : 0 ≤ d) (h1 : d ≤ 360) :
    Hue.from_degrees (F32.val d) =
      some ⟨f32ToRadians (if 180 < d then roundF32 (d - 360) else d)⟩ := by
  rw [Hue.from_degrees]
  rw [if_neg (not_not_intro ⟨h0, h1⟩)]

theorem radians_of_from_degrees {d : ℚ} {h : Hue}
    (hs : Hue.from_degrees (F32.val d) = some h) :
    0 ≤ d ∧ d ≤ 360 ∧
      h.unnormalized_radians = f32ToRadians (if 180 < d then roundF32 (d - 360) else d) := by
  by_cases hc : 0 ≤ d ∧ d ≤ 360
  · rw [from_degrees_eq_some hc.1 hc.2] at hs
    exact ⟨hc.1, hc.2, by rw [← Option.some_inj.mp hs]⟩
  · rw [Hue.from_degrees, if_pos hc] at hs
    exact absurd hs (by simp)

theorem isF32_dyadic {q : ℚ} (h0 : 0 < q) (h : isF32 q) :
    ∃ n : ℤ, q = (n : ℚ) * 2 ^ (Int.log 2 q - 23) := by
  refine ⟨roundHalfEven (q / 2 ^ f32exp q), ?_⟩
  conv_lhs => rw [← h]
  rw [roundF32_pos_eq h0, f32exp, abs_of_pos h0]

theorem log_d_range {d : ℚ} (h180 : 180 < d) (h360 : d ≤ 360) :
    Int.log 2 d = 7 ∨ Int.log 2 d = 8 := by
  have h0 : (0:ℚ) < d := by linarith
  have h1 := Int.zpow_log_le_self (b := 2) (R := ℚ) (by norm_num) h0
  have h2 := Int.lt_zpow_succ_log_self (b := 2) (R := ℚ) (by norm_num) d
  push_cast at h1 h2
  by_contra hcon
  push_neg at hcon
  obtain ⟨hne7, hne8⟩ := hcon
  rcases lt_or_gt_of_ne hne7 with hlt | hgt
  · have hle : Int.log 2 d + 1 ≤ 7 := by omega
    have hz : ((2:ℚ)) ^ (Int.log 2 d + 1) ≤ ((2:ℚ)) ^ (7:ℤ) :=
      zpow_le_zpow_right₀ (by norm_num) hle
    have h7 : ((2:ℚ)) ^ (7:ℤ) = 128 := by norm_num
    rw [h7] at hz
    linarith
  · have hge : (9:ℤ) ≤ Int.log 2 d := by omega
    have hz : ((2:ℚ)) ^ (9:ℤ) ≤ ((2:ℚ)) ^ (Int.log 2 d) :=
      zpow_le_zpow_right₀ (by norm_num) hge
    have h9 : ((2:ℚ)) ^ (9:ℤ) = 512 := by norm_num
    rw [h9] at hz
    linarith

theorem gap_below_360 {d : ℚ} (hf : isF32 d) (h180 : 180 < d) (h360 : d < 360) :
    d ≤ 360 - 1/32768 := by
  have h0 : (0:ℚ) < d := by linarith
  obtain ⟨n, hn⟩ := isF32_dyadic h0 hf
  rcases log_d_range h180 h360.le with h7 | h8
  · have hlt : d < ((2:ℚ)) ^ (Int.log 2 d + 1) := Int.lt_zpow_succ_log_self (by norm_num) d
    rw [h7] at hlt
    push_cast at hlt
    norm_num at hlt
    linarith
  · rw [h8] at hn
    norm_num at hn
    have hnlt : (n : ℚ) < 11796480 := by
      by_contra hcon
      push_neg at hcon
      nlinarith
    have hn' : n ≤ 11796479 := by
      have : n < 11796480 := by exact_mod_cast hnlt
      omega
    have hnq : (n : ℚ) ≤ 11796479 := by exact_mod_cast hn'
    nlinarith

theorem gap_above_180 {d : ℚ} (hf : isF32 d) (h180 : 180 < d) (h360 : d ≤ 360) :
    180 + 1/65536 ≤ d := by
  have h0 : (0:ℚ) < d := by linarith
  obtain ⟨n, hn⟩ := isF32_dyadic h0 hf
  rcases log_d_range h180 h360 with h7 | h8
  · rw [h7] at hn
    norm_num at hn
    have hngt : (11796480 : ℚ) < n := by
      by_contra hcon
      push_neg at hcon
      nlinarith
    have hn' : (11796481 : ℤ) ≤ n := by
      have : (11796480 : ℤ) < n := by exact_mod_cast hngt
      omega
    have hnq : (11796481 : ℚ) ≤ n := by exact_mod_cast hn'
    nlinarith
  · have hge : ((2:ℚ)) ^ (Int.log 2 d) ≤ d := Int.zpow_log_le_self (by norm_num) h0
    rw [h8] at hge
    norm_num at hge
    linarith

theorem radians_neg_branch {d : ℚ} (hf : isF32 d) (h180 : 180 < d) (h360 : d < 360) :
    ∃ b : ℚ, f32ToRadians (roundF32 (d - 360)) = -b ∧
      9370165/17592186044416 ≤ b ∧ b ≤ 13176793/4194304 := by
  have hw_lo : 1/32768 ≤ 360 - d := by linarith [gap_below_360 hf h180 h360]
  have hw_hi : 360 - d ≤ 11796479/65536 := by
    have := gap_above_180 hf h180 h360.le
    norm_num at this ⊢
    linarith
  have hw_pos : (0:ℚ) < 360 - d := by linarith
  have hud : roundF32 (d - 360) = -roundF32 (360 - d) := by
    have h := roundF32_neg (360 - d)
    rw [show -(360 - d) = d - 360 by ring] at h
    exact h
  have ha_pos : 0 < roundF32 (360 - d) := roundF32_pos hw_pos
  have ha_lo : 1/32768 ≤ roundF32 (360 - d) := by
    calc (1/32768 : ℚ) = roundF32 (1/32768) := roundF32_eps15.symm
      _ ≤ roundF32 (360 - d) := roundF32_mono hw_lo
  have ha_hi : roundF32 (360 - d) ≤ 11796479/65536 := by
    calc roundF32 (360 - d) ≤ roundF32 (11796479/65536) := roundF32_mono hw_hi
      _ = 11796479/65536 := roundF32_sub16
  have hrad : f32ToRadians (-roundF32 (360 - d)) =
      -roundF32 (roundF32 (360 - d) * RADS_PER_DEG) := by
    rw [f32ToRadians, show -roundF32 (360 - d) * RADS_PER_DEG =
      -(roundF32 (360 - d) * RADS_PER_DEG) by ring, roundF32_neg]
  refine ⟨roundF32 (roundF32 (360 - d) * RADS_PER_DEG), by rw [hud, hrad], ?_, ?_⟩
  · calc (9370165/17592186044416 : ℚ) = roundF32 (1/32768 * RADS_PER_DEG) :=
        roundF32_eps15mul.symm
      _ ≤ roundF32 (roundF32 (360 - d) * RADS_PER_DEG) :=
        roundF32_mono (mul_le_mul_of_nonneg_right ha_lo (by norm_num [RADS_PER_DEG]))
  · calc roundF32 (roundF32 (360 - d) * RADS_PER_DEG)
        ≤ roundF32 (11796479/65536 * RADS_PER_DEG) :=
        roundF32_mono (mul_le_mul_of_nonneg_right ha_hi (by norm_num [RADS_PER_DEG]))
      _ = 13176793/4194304 := roundF32_sub16mul

theorem radians_pos_branch {d : ℚ} (h0 : 0 ≤ d) (h180 : d ≤ 180) :
    0 ≤ f32ToRadians d ∧ f32ToRadians d ≤ 13176795/4194304 := by
  constructor
  · exact roundF32_nonneg (mul_nonneg h0 (by norm_num [RADS_PER_DEG]))
  · calc f32ToRadians d = roundF32 (d * RADS_PER_DEG) := rfl
      _ ≤ roundF32 (180 * RADS_PER_DEG) :=
        roundF32_mono (mul_le_mul_of_nonneg_right h180 (by norm_num [RADS_PER_DEG]))
      _ = 13176795/4194304 := roundF32_180mul

theorem radians_at_360 : f32ToRadians (roundF32 (360 - 360 : ℚ)) = 0 := by
  rw [show (360 - 360 : ℚ) = 0 by norm_num, roundF32_zero, f32ToRadians, zero_mul, roundF32_zero]

theorem isF32_180 : isF32 (180 : ℚ) := roundF32_180

theorem isF32_zero : isF32 (0 : ℚ) := roundF32_zero

theorem from_degrees_180 : Hue.from_degrees (F32.val 180) = some ⟨13176795/4194304⟩ := by
  rw [from_degrees_eq_some (by norm_num) (by norm_num), if_neg (by norm_num)]
  rw [f32ToRadians, roundF32_180mul]

theorem from_degrees_zero : Hue.from_degrees (F32.val 0) = some ⟨0⟩ := by
  rw [from_degrees_eq_some (by norm_num) (by norm_num), if_neg (by norm_num)]
  rw [f32ToRadians, zero_mul, roundF32_zero]

/-- C1: the z component of `Xyz::WHITE` as written in the source is 0.108883, which is not
the D65 value 1.08883 claimed by the spec and used by the z field's own doc comment and by
`Xyz::in_bounds`. -/
theorem WHITE_z_is_mistyped : Xyz.WHITE.z = 0.108883 ∧ (0.108883 : ℚ) ≠ 1.08883 := by
  refine ⟨rfl, by norm_num⟩

/-- C2: `convert` is exactly the composition of one `to_xyz` call and one `from_xyz` call,
for every pair of core color spaces and every input; being a total Lean function, it has no
failure path. -/
theorem convert_eq_from_xyz_to_xyz {In Out : Type} (inSpace : CoreColorSpace In)
    (outSpace : CoreColorSpace Out) (color : In) :
    convert inSpace outSpace color = outSpace.from_xyz (inSpace.to_xyz color) := rfl

/-- C3: converting `Xyz` to `Xyz` is the identity, exactly: both methods of the
`CoreColorSpace` implementation on `Xyz` are the identity function. -/
theorem convert_xyz_xyz (c : Xyz) :
    convert Xyz.coreColorSpace Xyz.coreColorSpace c = c := rfl

/-- C4: `Hue::from_degrees(degrees)` returns `None` exactly when `degrees` does not lie in
the closed interval `[0, 360]` (a NaN lies in no interval and is rejected). -/
theorem from_degrees_none_iff (d : F32) :
    Hue.from_degrees d = none ↔ ¬∃ q : ℚ, d = F32.val q ∧ 0 ≤ q ∧ q ≤ 360 := by
  cases d with
  | nan => simp [Hue.from_degrees]
  | val q =>
    by_cases h : 0 ≤ q ∧ q ≤ 360
    · simp [Hue.from_degrees, h]
    · simp [Hue.from_degrees, h]

/-- C5: for every f32 degree value accepted by `Hue::from_degrees`, the constructed hue's
`to_degrees` lies in the half-open interval `[0, 360)`. -/
theorem to_degrees_in_range (d : ℚ) (hf : isF32 d) (h : Hue)
    (hs : Hue.from_degrees (F32.val d) = some h) :
    0 ≤ h.to_degrees ∧ h.to_degrees < 360 := by
  obtain ⟨h0, h1, hrad⟩ := radians_of_from_degrees hs
  simp only [Hue.to_degrees]
  by_cases h180 : 180 < d
  · rw [if_pos h180] at hrad
    by_cases h360 : d < 360
    · obtain ⟨b, hb, hb_lo, hb_hi⟩ := radians_neg_branch hf h180 h360
      rw [hb] at hrad
      have hb_pos : (0:ℚ) < b := by linarith
      have hftd : f32ToDegrees (-b) = -roundF32 (b * PIS_IN_180) := by
        rw [f32ToDegrees, show -b * PIS_IN_180 = -(b * PIS_IN_180) by ring, roundF32_neg]
      have hc_pos : 0 < roundF32 (b * PIS_IN_180) :=
        roundF32_pos (mul_pos hb_pos (by norm_num [PIS_IN_180]))
      have hc_lo : 1/32768 ≤ roundF32 (b * PIS_IN_180) := by
        calc (1/32768 : ℚ) = roundF32 (9370165/17592186044416 * PIS_IN_180) :=
            roundF32_eps15mulmul.symm
          _ ≤ roundF32 (b * PIS_IN_180) :=
            roundF32_mono (mul_le_mul_of_nonneg_right hb_lo (by norm_num [PIS_IN_180]))
      have hc_hi : roundF32 (b * PIS_IN_180) ≤ 181 := by
        have hle := roundF32_le (q := b * PIS_IN_180)
          (mul_nonneg hb_pos.le (by norm_num [PIS_IN_180]))
        have hx : b * PIS_IN_180 ≤ 197912070777785/1099511627776 := by
          have h2 : b * PIS_IN_180 ≤ 13176793/4194304 * PIS_IN_180 :=
            mul_le_mul_of_nonneg_right hb_hi (by norm_num [PIS_IN_180])
          have h3 : (13176793/4194304 : ℚ) * PIS_IN_180 = 197912070777785/1099511627776 := by
            norm_num [PIS_IN_180]
          linarith
        linarith
      rw [hrad, hftd]
      rw [if_pos (by linarith)]
      constructor
      · exact (roundF32_pos (by linarith)).le
      · calc roundF32 (-roundF32 (b * PIS_IN_180) + 360) ≤ roundF32 (360 - 1/32768) :=
            roundF32_mono (by linarith)
          _ = 360 - 1/32768 := roundF32_360sub
          _ < 360 := by norm_num
    · have hd360 : d = 360 := le_antisymm h1 (not_lt.mp h360)
      rw [hd360, radians_at_360] at hrad
      rw [hrad]
      rw [f32ToDegrees, zero_mul, roundF32_zero]
      norm_num
  · rw [if_neg h180] at hrad
    have hp := radians_pos_branch h0 (not_lt.mp h180)
    have hu_nonneg : 0 ≤ f32ToDegrees (f32ToRadians d) :=
      roundF32_nonneg (mul_nonneg hp.1 (by norm_num [PIS_IN_180]))
    rw [hrad]
    rw [if_neg (not_lt.mpr hu_nonneg)]
    refine ⟨hu_nonneg, ?_⟩
    calc f32ToDegrees (f32ToRadians d) = roundF32 (f32ToRadians d * PIS_IN_180) := rfl
      _ ≤ roundF32 (13176795/4194304 * PIS_IN_180) :=
        roundF32_mono (mul_le_mul_of_nonneg_right hp.2 (by norm_num [PIS_IN_180]))
      _ = 180 := roundF32_pi32mul
      _ < 360 := by norm_num

theorem roundtrip_neg_core (d w A B C R : ℚ) (hd : w = 360 - d)
    (hw_pos : 0 < w) (hw_le : w ≤ 180)
    (hA_lo : w - w/16777216 ≤ A) (hA_hi : A ≤ w + w/16777216)
    (hB_lo : A * RADS_PER_DEG - A * RADS_PER_DEG/16777216 ≤ B)
    (hB_hi : B ≤ A * RADS_PER_DEG + A * RADS_PER_DEG/16777216)
    (hC_lo : B * PIS_IN_180 - B * PIS_IN_180/16777216 ≤ C)
    (hC_hi : C ≤ B * PIS_IN_180 + B * PIS_IN_180/16777216)
    (hR_lo : (-C + 360) - (-C + 360)/16777216 ≤ R)
    (hR_hi : R ≤ (-C + 360) + (-C + 360)/16777216) :
    |R - d| < 1/1000 := by
  simp only [RADS_PER_DEG, PIS_IN_180] at hB_lo hB_hi hC_lo hC_hi
  have hA_pos : 0 < A := by linarith
  have hB_pos : 0 < B := by linarith
  have hC_pos : 0 < C := by linarith
  have hC_ub : C ≤ 182 := by linarith
  rw [abs_sub_lt_iff]
  constructor
  · linarith
  · linarith

theorem roundtrip_pos_core (d r u : ℚ) (h0 : 0 ≤ d) (h180 : d ≤ 180)
    (hr_lo : d * RADS_PER_DEG - d * RADS_PER_DEG/16777216 ≤ r)
    (hr_hi : r ≤ d * RADS_PER_DEG + d * RADS_PER_DEG/16777216)
    (hu_lo : r * PIS_IN_180 - r * PIS_IN_180/16777216 ≤ u)
    (hu_hi : u ≤ r * PIS_IN_180 + r * PIS_IN_180/16777216) :
    |u - d| < 1/1000 := by
  simp only [RADS_PER_DEG, PIS_IN_180] at hr_lo hr_hi hu_lo hu_hi
  have hr_nonneg : 0 ≤ r := by linarith
  rw [abs_sub_lt_iff]
  constructor
  · linarith
  · linarith

/-- C5 witness: the hue built from 0 degrees has `to_degrees` inside `[0, 360)`. -/
theorem to_degrees_in_range_witness : 0 ≤ Hue.to_degrees ⟨0⟩ ∧ Hue.to_degrees ⟨0⟩ < 360 :=
  to_degrees_in_range 0 isF32_zero ⟨0⟩ from_degrees_zero

/-- C6: for every degree value in `[0, 360)`, `Hue::from_degrees` succeeds and the
round trip through `to_degrees` returns the input within a tolerance of 1/1000. -/
theorem from_to_degrees_roundtrip (d : ℚ) (h0 : 0 ≤ d) (h1 : d < 360) :
    ∃ h : Hue, Hue.from_degrees (F32.val d) = some h ∧ |h.to_degrees - d| < 1/1000 := by
  by_cases h180 : 180 < d
  · refine ⟨⟨f32ToRadians (roundF32 (d - 360))⟩, ?_, ?_⟩
    · rw [from_degrees_eq_some h0 h1.le, if_pos h180]
    · have hud : roundF32 (d - 360) = -roundF32 (360 - d) := by
        have h := roundF32_neg (360 - d)
        rw [show -(360 - d) = d - 360 by ring] at h
        exact h
      have hw_pos : (0:ℚ) < 360 - d := by linarith
      have hA_pos : 0 < roundF32 (360 - d) := roundF32_pos hw_pos
      have hrad : f32ToRadians (-roundF32 (360 - d)) =
          -roundF32 (roundF32 (360 - d) * RADS_PER_DEG) := by
        rw [f32ToRadians, show -roundF32 (360 - d) * RADS_PER_DEG =
          -(roundF32 (360 - d) * RADS_PER_DEG) by ring, roundF32_neg]
      have hBq_pos : (0:ℚ) < roundF32 (360 - d) * RADS_PER_DEG :=
        mul_pos hA_pos (by norm_num [RADS_PER_DEG])
      have hB_pos : 0 < roundF32 (roundF32 (360 - d) * RADS_PER_DEG) := roundF32_pos hBq_pos
      have hftd : f32ToDegrees (-roundF32 (roundF32 (360 - d) * RADS_PER_DEG)) =
          -roundF32 (roundF32 (roundF32 (360 - d) * RADS_PER_DEG) * PIS_IN_180) := by
        rw [f32ToDegrees, show -roundF32 (roundF32 (360 - d) * RADS_PER_DEG) * PIS_IN_180 =
          -(roundF32 (roundF32 (360 - d) * RADS_PER_DEG) * PIS_IN_180) by ring, roundF32_neg]
      have hCq_pos : (0:ℚ) < roundF32 (roundF32 (360 - d) * RADS_PER_DEG) * PIS_IN_180 :=
        mul_pos hB_pos (by norm_num [PIS_IN_180])
      have hC_pos : 0 < roundF32 (roundF32 (roundF32 (360 - d) * RADS_PER_DEG) * PIS_IN_180) :=
        roundF32_pos hCq_pos
      have hC_ub :
          roundF32 (roundF32 (roundF32 (360 - d) * RADS_PER_DEG) * PIS_IN_180) ≤ 182 := by
        have hA_hi' := roundF32_le hw_pos.le
        have hB_hi' := roundF32_le hBq_pos.le
        have hC_hi' := roundF32_le hCq_pos.le
        have hA_pos' := hA_pos
        have hB_pos' := hB_pos
        have hw_le : (360:ℚ) - d ≤ 180 := by linarith
        simp only [RADS_PER_DEG, PIS_IN_180] at hA_hi' hB_hi' hC_hi' hA_pos' hB_pos' ⊢
        linarith
      have h_eq : Hue.to_degrees ⟨f32ToRadians (roundF32 (d - 360))⟩ =
          roundF32 (-roundF32 (roundF32 (roundF32 (360 - d) * RADS_PER_DEG) * PIS_IN_180)
            + 360) := by
        simp only [Hue.to_degrees, hud, hrad, hftd]
        rw [if_pos (by linarith)]
      rw [h_eq]
      exact roundtrip_neg_core d (360 - d) (roundF32 (360 - d))
        (roundF32 (roundF32 (360 - d) * RADS_PER_DEG))
        (roundF32 (roundF32 (roundF32 (360 - d) * RADS_PER_DEG) * PIS_IN_180))
        (roundF32 (-roundF32 (roundF32 (roundF32 (360 - d) * RADS_PER_DEG) * PIS_IN_180) + 360))
        rfl hw_pos (by linarith)
        (roundF32_ge hw_pos.le) (roundF32_le hw_pos.le)
        (roundF32_ge hBq_pos.le) (roundF32_le hBq_pos.le)
        (roundF32_ge hCq_pos.le) (roundF32_le hCq_pos.le)
        (roundF32_ge (by linarith)) (roundF32_le (by linarith))
  · refine ⟨⟨f32ToRadians d⟩, ?_, ?_⟩
    · rw [from_degrees_eq_some h0 h1.le, if_neg h180]
    · push_neg at h180
      have hr_nonneg : 0 ≤ roundF32 (d * RADS_PER_DEG) :=
        roundF32_nonneg (mul_nonneg h0 (by norm_num [RADS_PER_DEG]))
      have hrq_nonneg : (0:ℚ) ≤ d * RADS_PER_DEG :=
        mul_nonneg h0 (by norm_num [RADS_PER_DEG])
      have huq_nonneg : (0:ℚ) ≤ roundF32 (d * RADS_PER_DEG) * PIS_IN_180 :=
        mul_nonneg hr_nonneg (by norm_num [PIS_IN_180])
      have hu_nonneg : 0 ≤ roundF32 (roundF32 (d * RADS_PER_DEG) * PIS_IN_180) :=
        roundF32_nonneg huq_nonneg
      have h_eq : Hue.to_degrees ⟨f32ToRadians d⟩ =
          roundF32 (roundF32 (d * RADS_PER_DEG) * PIS_IN_180) := by
        simp only [Hue.to_degrees, f32ToRadians, f32ToDegrees]
        rw [if_neg (not_lt.mpr hu_nonneg)]
      rw [h_eq]
      exact roundtrip_pos_core d (roundF32 (d * RADS_PER_DEG))
        (roundF32 (roundF32 (d * RADS_PER_DEG) * PIS_IN_180)) h0 h180
        (roundF32_ge hrq_nonneg) (roundF32_le hrq_nonneg)
        (roundF32_ge huq_nonneg) (roundF32_le huq_nonneg)

/-- C6 witness: the round trip at 90 degrees stays within the tolerance. -/
theorem from_to_degrees_roundtrip_witness :
    ∃ h : Hue, Hue.from_degrees (F32.val 90) = some h ∧ |h.to_degrees - 90| < 1/1000 :=
  from_to_degrees_roundtrip 90 (by norm_num) (by norm_num)

/-- C7 (amended): every hue built by `Hue::from_degrees` from an f32 degree value stores
radians in the interval `(-pi, 13176795/4194304]`; the upper endpoint `13176795/4194304` is
the binary32 value of pi, which exceeds the real pi (by less than `2 ^ (-22)`), so the
claimed interval `(-pi, pi]` is enlarged by exactly that one-ulp excess at the top end. -/
theorem radians_within_f32_pi (d : ℚ) (hf : isF32 d) (h : Hue)
    (hs : Hue.from_degrees (F32.val d) = some h) :
    -Real.pi < (h.unnormalized_radians : ℝ) ∧
      h.unnormalized_radians ≤ 13176795/4194304 := by
  obtain ⟨h0, h1, hrad⟩ := radians_of_from_degrees hs
  by_cases h180 : 180 < d
  · rw [if_pos h180] at hrad
    by_cases h360 : d < 360
    · obtain ⟨b, hb, hb_lo, hb_hi⟩ := radians_neg_branch hf h180 h360
      rw [hb] at hrad
      rw [hrad]
      constructor
      · have hpi : (3.14159265358979323846 : ℝ) < Real.pi := Real.pi_gt_d20
        have hbcast : ((b:ℝ)) ≤ ((13176793/4194304 : ℚ) : ℝ) := by exact_mod_cast hb_hi
        push_cast at hbcast
        push_cast
        norm_num at hpi ⊢
        linarith
      · have hb_pos : (0:ℚ) < b := by linarith
        linarith
    · have hd360 : d = 360 := le_antisymm h1 (not_lt.mp h360)
      rw [hd360, radians_at_360] at hrad
      rw [hrad]
      constructor
      · push_cast
        linarith [Real.pi_pos]
      · norm_num
  · rw [if_neg h180] at hrad
    have hp := radians_pos_branch h0 (not_lt.mp h180)
    rw [hrad]
    constructor
    · have : (0:ℝ) ≤ ((f32ToRadians d : ℚ) : ℝ) := by exact_mod_cast hp.1
      linarith [Real.pi_pos]
    · exact hp.2

/-- C7 witness: applying the amended bound to the hue built from 180 degrees. -/
theorem radians_within_f32_pi_witness :
    -Real.pi < ((Hue.unnormalized_radians ⟨13176795/4194304⟩ : ℚ) : ℝ) ∧
      Hue.unnormalized_radians ⟨13176795/4194304⟩ ≤ 13176795/4194304 :=
  radians_within_f32_pi 180 isF32_180 ⟨13176795/4194304⟩ from_degrees_180

/-- C7 counterexample: at the in-range input 180 degrees, the stored radian value is
`13176795/4194304 = 3.14159274…`, which is strictly greater than the real pi, so the
stored radians do not lie in `(-pi, pi]` as claimed. -/
theorem radians_exceed_pi_at_180 :
    Hue.from_degrees (F32.val 180) = some ⟨13176795/4194304⟩ ∧
      Real.pi < ((13176795/4194304 : ℚ) : ℝ) := by
  refine ⟨from_degrees_180, ?_⟩
  have hpi : Real.pi < 3.14159265358979323847 := Real.pi_lt_d20
  push_cast
  norm_num at hpi ⊢
  linarith

/-- C8: both `Xyz::BLACK` and `Xyz::WHITE` (with the source's component values) pass
`in_bounds`. -/
theorem black_white_in_bounds : Xyz.BLACK.in_bounds = true ∧ Xyz.WHITE.in_bounds = true := by
  constructor
  · simp only [Xyz.in_bounds, approx_in_range, Xyz.BLACK, Bool.and_eq_true, decide_eq_true_eq]
    norm_num
  · simp only [Xyz.in_bounds, approx_in_range, Xyz.WHITE, Bool.and_eq_true, decide_eq_true_eq]
    norm_num

/-- C9: the seam inputs 0° and 360° both construct a hue, and the two hues are structurally
equal: both store zero radians. -/
theorem from_degrees_seam :
    Hue.from_degrees (F32.val 0) = some ⟨0⟩ ∧ Hue.from_degrees (F32.val 360) = some ⟨0⟩ := by
  constructor
  · norm_num [Hue.from_degrees, f32ToRadians, roundF32]
  · norm_num [Hue.from_degrees, f32ToRadians, roundF32]

/-- C10: a NaN input fails the range-membership test, so `Hue::from_degrees(NaN)`
returns `None`. -/
theorem from_degrees_nan : Hue.from_degrees F32.nan = none := rfl
